import Mathlib

/-!
Verification development for the `icvcs` snapshot-versioning tool
(`src/icvcs.py`).  The Python program is shallowly embedded: the working
tree and every snapshot directory are modelled as finite association maps
from relative paths (component lists) to file contents (byte lists); the
persisted repository documents (`repo_data.json`, `commit_history.json`)
become fields of an explicit `State`; each CLI operation becomes a pure
function `State → OpResult` that returns the new state, the reported error
(if any), and the trace of persistent-write events the operation performed.

Modelling conventions:
* A path is a list of slash-free components; directories exist implicitly:
  `d` is a directory of a tree exactly when some entry's path properly
  extends `d`.  The working tree `State.disk` holds the user's files
  outside the repository storage area `.icvcs`.
* Python exceptions that `icvcs.py` does not catch (`FileExistsError` from
  `os.makedirs`, `IsADirectoryError` / `NotADirectoryError` /
  `FileExistsError` from `shutil` copies, `ValueError` from `list.remove`,
  `UnicodeDecodeError` from text reads) abort the operation; the embedding
  returns `Err.crash` and keeps exactly the partial effects that happened
  before the raise.
* JSON metadata documents are modelled by their parsed records; the bytes
  written into a snapshot's `metadata.json` are produced by an abstract
  byte rendering of the record.
* Text decoding (Python `open(..., "r").read()`) is modelled as: byte
  lists that are pure ASCII decode to the evident string, anything else
  fails to decode.
-/

namespace Icvcs

/-- Relative filesystem path, as its list of slash-free components. -/
abbrev Path := List String

/-- File contents, as a list of bytes. -/
abbrev Content := List Nat

/-- Flat directory tree: association map from relative path to bytes. -/
abbrev Tree := List (Path × Content)

/-- Association-list lookup keyed by decidable equality. -/
def getKV {α β : Type} [DecidableEq α] : List (α × β) → α → Option β
  | [], _ => none
  | e :: t, k => if e.1 = k then some e.2 else getKV t k

/-- Remove every binding of key `k` (models deleting the directory entry). -/
def removeKV {α β : Type} [DecidableEq α] (l : List (α × β)) (k : α) :
    List (α × β) :=
  l.filter fun e => decide (e.1 ≠ k)

/-- Overwrite-or-append insertion (models writing the file at key `k`). -/
def insertKV {α β : Type} [DecidableEq α] (l : List (α × β)) (k : α) (v : β) :
    List (α × β) :=
  if (getKV l k).isSome then
    l.map fun e => if e.1 = k then (k, v) else e
  else l ++ [(k, v)]

/-- Does path `p` lead (as a chain of components) into path `q`? -/
def startsWithPath : Path → Path → Bool
  | [], _ => true
  | _, [] => false
  | a :: as, b :: bs => if a = b then startsWithPath as bs else false

/-- File at exactly `p` in tree `t` (Python `os.path.isfile`). -/
def readFile (t : Tree) (p : Path) : Option Content := getKV t p

/-- Predicate that `p` is a directory of `t`: some entry lies properly below it
(Python `os.path.isdir` over our implicit-directory trees). -/
def isDirIn (t : Tree) (p : Path) : Bool :=
  t.any fun e => startsWithPath p e.1 && decide (p ≠ e.1)

/-- Python `os.path.exists` on tree `t`. -/
def pexistsIn (t : Tree) (p : Path) : Bool :=
  (readFile t p).isSome || isDirIn t p

/-- Python `os.path.basename` of a relative path. -/
def basename (p : Path) : String := p.getLastD ("")

/-- Bytes of a string (abstract stand-in for encoded JSON/text output). -/
def strBytes (s : String) : Content := s.data.map Char.toNat

/-- Text decoding of bytes: ASCII byte lists decode, anything else raises
`UnicodeDecodeError` (returned as `none`). -/
def decodeText (c : Content) : Option String :=
  if c.all (fun b => decide (b < 128)) then
    some (String.mk (c.map Char.ofNat))
  else none

/-- Is `pat` a substring of `s` (Python `pat in s`)? -/
def containsList (pat : List Char) : List Char → Bool
  | [] => pat.isEmpty
  | s@(_ :: t) => pat.isPrefixOf s || containsList pat t

/-- String containment used by `status`'s walk filter (`ICVCS_DIR in root`). -/
def containsSub (s pat : String) : Bool := containsList pat.data s.data

/-- String prefix test used in `status` (`file.startswith(ICVCS_DIR)`). -/
def strStarts (pat s : String) : Bool := pat.data.isPrefixOf s.data

/-- Render a component path as the relative-path string `a/b/c`. -/
def renderPath (p : Path) : String := String.intercalate ("/") p

/-- The `root` string `os.walk('.')` reports for the directory holding
file `p`: `"."` for top-level files, `"./<dirname>"` otherwise. -/
def renderRoot (p : Path) : String :=
  if p.length ≤ 1 then (".") else ("./") ++ renderPath p.dropLast

/-- Code-point comparison of character lists (Python string `<`). -/
def listCharLt : List Char → List Char → Bool
  | _, [] => false
  | [], _ :: _ => true
  | a :: as, b :: bs =>
    if a.toNat < b.toNat then true
    else if a.toNat = b.toNat then listCharLt as bs
    else false

/-- Python string `<=`, used by `sorted`. -/
def strLe (a b : String) : Bool := a = b || listCharLt a.data b.data

/-- Insertion into a `strLe`-sorted list. -/
def insSortedStr (x : String) : List String → List String
  | [] => [x]
  | y :: t => if strLe x y then x :: y :: t else y :: insSortedStr x t

/-- Python `sorted` on a list of strings. -/
def sortStr (l : List String) : List String := l.foldr insSortedStr []

/-- Wall-clock instant handed to an operation (`datetime.now()`). -/
structure DTime where
  year : Nat
  month : Nat
  day : Nat
  hour : Nat
  minute : Nat
  sec : Nat
  usec : Nat
deriving DecidableEq

/-- Zero-padded two-digit decimal rendering. -/
def pad2 (n : Nat) : String := if n < 10 then ("0") ++ toString n else toString n

/-- Zero-padded four-digit decimal rendering (years of interest). -/
def pad4 (n : Nat) : String :=
  if n < 10 then ("000") ++ toString n
  else if n < 100 then ("00") ++ toString n
  else if n < 1000 then ("0") ++ toString n
  else toString n

/-- Commit identifier: `datetime.now().strftime('%Y%m%d%H%M%S')`.
Second resolution — the `usec` field is dropped. -/
def commitId (t : DTime) : String :=
  pad4 t.year ++ pad2 t.month ++ pad2 t.day ++
    pad2 t.hour ++ pad2 t.minute ++ pad2 t.sec

/-- Stand-in for `datetime.now().isoformat()` (exact format is irrelevant to
every claim; only used inside metadata records). -/
def isoTime (t : DTime) : String :=
  pad4 t.year ++ "-" ++ pad2 t.month ++ "-" ++ pad2 t.day ++ "T" ++
    pad2 t.hour ++ ":" ++ pad2 t.minute ++ ":" ++ pad2 t.sec ++ "." ++
    toString t.usec

/-- Parsed `metadata.json` of a version (written by `version create`). -/
structure VersionMeta where
  version_name : String
  created_at : String
  author : String
  description : String
  files : List Path
deriving DecidableEq

/-- Parsed commit metadata record (also a journal entry). -/
structure CommitMeta where
  commit_id : String
  timestamp : String
  message : String
  author : String
deriving DecidableEq

/-- Abstract byte rendering of a version `metadata.json`. -/
def renderVersionMeta (m : VersionMeta) : Content :=
  strBytes (m.version_name ++ "|" ++ m.created_at ++ "|" ++ m.author ++ "|" ++
    m.description ++ "|" ++ String.intercalate (",") (m.files.map renderPath))

/-- Abstract byte rendering of a commit `metadata.json`. -/
def renderCommitMeta (m : CommitMeta) : Content :=
  strBytes (m.commit_id ++ "|" ++ m.timestamp ++ "|" ++ m.message ++ "|" ++
    m.author)

/-- On-disk storage of one version: its file tree (including the
`metadata.json` entry when it was written) plus the parsed metadata
(`none` models a storage directory whose `metadata.json` is missing,
e.g. after a mid-copy crash). -/
structure VersionData where
  tree : Tree
  meta : Option VersionMeta
deriving DecidableEq

/-- The parsed `repo_data.json` document. -/
structure RepoData where
  repo_name : String
  files : List Path
  directories : List (Path × List Path)
  versions : List String
deriving DecidableEq

/-- Whole persistent repository state: working tree plus everything under
`.icvcs` (index document, commit storages, the `latest` pointer directory,
version storages, and the append-only journal document). -/
structure State where
  disk : Tree
  repo : RepoData
  commits : List (String × Tree)
  latest : Option Tree
  versionsStore : List (String × VersionData)
  history : List CommitMeta
deriving DecidableEq

/-- Error kinds reported by operations (mapping the printed messages). -/
inductive Err where
  | pathNotFound
  | alreadyTracked
  | notTracked
  | alreadyExists
  | nameRequired
  | versionNotFound
  | commitNotFound
  | nothingToPush
  | crash
deriving DecidableEq

/-- Persistent-write events an operation performs, in program order. -/
inductive WEvent where
  | indexW
  | journalW
  | commitW (id : String)
  | versionW (name : String)
  | latestW
  | rmCommitW (id : String)
  | rmVersionW (name : String)
  | rmLatestW
  | diskW
deriving DecidableEq

/-- Result of running one operation. -/
structure OpResult where
  state : State
  err : Option Err
  writes : List WEvent
deriving DecidableEq

/-- The recursive-copy entries `shutil.copytree(d, dest/basename d)`
contributes to a snapshot: every working-tree file below `d`, re-rooted
under `basename d`. -/
def copytreeEntries (disk : Tree) (d : Path) : List (Path × Content) :=
  disk.filterMap fun e =>
    if startsWithPath d e.1 && decide (d ≠ e.1) then
      some (basename d :: e.1.drop d.length, e.2)
    else none

/-- The tracked-`files` copy loop of `commit()` / `version create`:
existing files are copied to the snapshot root under their basename,
missing ones are skipped with a warning, and a tracked path that now names
a directory makes `shutil.copy` raise (`false` flag = crash, partial tree
kept). -/
def copyFilesInto (disk : Tree) : List Path → Tree → Tree × Bool
  | [], acc => (acc, true)
  | f :: fs, acc =>
    match readFile disk f with
    | some c => copyFilesInto disk fs (insertKV acc [basename f] c)
    | none =>
      if isDirIn disk f then (acc, false)
      else copyFilesInto disk fs acc

/-- The tracked-`directories` copy loop: only the dictionary keys are
iterated, each existing directory is `copytree`d under its basename;
`copytree` raises if the tracked path now names a file or if the
destination already exists in the snapshot (`false` flag = crash). -/
def copyDirsInto (disk : Tree) : List (Path × List Path) → Tree → Tree × Bool
  | [], acc => (acc, true)
  | d :: ds, acc =>
    if (readFile disk d.1).isSome then (acc, false)
    else if isDirIn disk d.1 then
      if pexistsIn acc [basename d.1] then (acc, false)
      else copyDirsInto disk ds (acc ++ copytreeEntries disk d.1)
    else copyDirsInto disk ds acc

/-- Full snapshot materialization shared by `commit()` and
`version create`: the file loop then the directory loop.  The flag is
`false` when one of the copies raised; the tree then holds exactly what
was copied before the raise. -/
def materializeSnapshot (disk : Tree) (files : List Path)
    (dirs : List (Path × List Path)) : Tree × Bool :=
  let fr := copyFilesInto disk files []
  if fr.2 then copyDirsInto disk dirs fr.1 else fr

/-- The walk of `add(path, with_files=True)`: every working-tree file
strictly below `path`, by its full relative path (`os.path.join(root, f)`). -/
def walkUnder (disk : Tree) (p : Path) : List Path :=
  disk.filterMap fun e =>
    if startsWithPath p e.1 && decide (p ≠ e.1) then some e.1 else none

/-- Sequential `if file_path not in cache: cache.append(file_path)`. -/
def appendNew (cache : List Path) : List Path → List Path
  | [] => cache
  | f :: fs => appendNew (if f ∈ cache then cache else cache ++ [f]) fs

/-- Model of `add(path, with_files)` (src/icvcs.py:76-100).  Branches on the
current on-disk type of `path`; every branch — including the
path-does-not-exist report — falls through to `save_repo_data`, so the
index document is rewritten even on failure. -/
def add (s : State) (p : Path) (wf : Bool) : OpResult :=
  if (readFile s.disk p).isSome then
    if p ∈ s.repo.files then ⟨s, some .alreadyTracked, [.indexW]⟩
    else ⟨{ s with repo := { s.repo with files := s.repo.files ++ [p] } },
          none, [.indexW]⟩
  else if isDirIn s.disk p then
    let dirs0 :=
      if (getKV s.repo.directories p).isSome then s.repo.directories
      else s.repo.directories ++ [(p, [])]
    let dirs1 :=
      if wf then
        insertKV dirs0 p
          (appendNew ((getKV dirs0 p).getD []) (walkUnder s.disk p))
      else dirs0
    ⟨{ s with repo := { s.repo with directories := dirs1 } }, none, [.indexW]⟩
  else ⟨s, some .pathNotFound, [.indexW]⟩

/-- Model of `remove(path)` (src/icvcs.py:103-121).  Branches on the on-disk type
first: a tracked path that no longer exists on disk reaches the final
`else` and is *not* removed from the index.  Every branch falls through to
`save_repo_data`. -/
def remove (s : State) (p : Path) : OpResult :=
  if (readFile s.disk p).isSome then
    if p ∈ s.repo.files then
      ⟨{ s with repo := { s.repo with files := s.repo.files.erase p } },
        none, [.indexW]⟩
    else ⟨s, some .notTracked, [.indexW]⟩
  else if isDirIn s.disk p then
    if (getKV s.repo.directories p).isSome then
      ⟨{ s with repo := { s.repo with
          directories := removeKV s.repo.directories p } }, none, [.indexW]⟩
    else ⟨s, some .notTracked, [.indexW]⟩
  else ⟨s, some .pathNotFound, [.indexW]⟩

/-- Shared tail of `version create` once the storage slot is free
(src/icvcs.py:145-167): `os.makedirs`, the two copy loops, the metadata
document, registry append, `save_repo_data`.  A copy crash leaves the
partial storage (no `metadata.json`) and never reaches the registry
update, so `reg` (the in-memory registry at that point) is discarded. -/
def versionCreateBody (s : State) (reg : List String) (name : String)
    (now : DTime) (author desc : String) (pre : List WEvent) : OpResult :=
  let mr := materializeSnapshot s.disk s.repo.files s.repo.directories
  if mr.2 then
    let meta : VersionMeta :=
      { version_name := name, created_at := isoTime now, author := author,
        description := desc, files := s.repo.files }
    let tree := insertKV mr.1 ["metadata.json"] (renderVersionMeta meta)
    ⟨{ s with
        versionsStore := s.versionsStore ++ [(name, ⟨tree, some meta⟩)],
        repo := { s.repo with versions := reg ++ [name] } },
      none, pre ++ [.versionW name, .indexW]⟩
  else
    ⟨{ s with versionsStore := s.versionsStore ++ [(name, ⟨mr.1, none⟩)] },
      some .crash, pre ++ [.versionW name]⟩

/-- Model of `version 'create'` (src/icvcs.py:128-167).  With an existing storage
directory and no `--force` it aborts before any write; with `--force` it
first `rmtree`s the old storage and then calls `list.remove` on the
registry, which raises `ValueError` (storage already destroyed) when the
name was not registered. -/
def version_create (s : State) (name : String) (force : Bool) (now : DTime)
    (author desc : String) : OpResult :=
  if name = "" then ⟨s, some .nameRequired, []⟩
  else if (getKV s.versionsStore name).isSome then
    if force then
      let s1 := { s with versionsStore := removeKV s.versionsStore name }
      if name ∈ s.repo.versions then
        versionCreateBody s1 (s.repo.versions.erase name) name now author desc
          [.rmVersionW name]
      else ⟨s1, some .crash, [.rmVersionW name]⟩
    else ⟨s, some .alreadyExists, []⟩
  else versionCreateBody s s.repo.versions name now author desc []

/-- Model of `version 'delete'` (src/icvcs.py:169-181).  `rmtree` precedes the
registry `list.remove`, so an unregistered-but-stored name loses its
storage and then crashes before `save_repo_data`. -/
def version_delete (s : State) (name : String) : OpResult :=
  if name = "" then ⟨s, some .nameRequired, []⟩
  else if (getKV s.versionsStore name).isSome then
    let s1 := { s with versionsStore := removeKV s.versionsStore name }
    if name ∈ s.repo.versions then
      ⟨{ s1 with repo := { s1.repo with
          versions := s1.repo.versions.erase name } }, none,
        [.rmVersionW name, .indexW]⟩
    else ⟨s1, some .crash, [.rmVersionW name]⟩
  else ⟨s, some .versionNotFound, []⟩

/-- Model of `commit()` (src/icvcs.py:187-227).  The identifier is the
second-resolution timestamp; `os.makedirs` raises `FileExistsError` when
that identifier already has a storage directory (including the reserved
`latest`), aborting before anything is written.  Otherwise the snapshot is
materialized, `metadata.json` written, and the record appended to the
journal. -/
def commit (s : State) (now : DTime) (msg author : String) : OpResult :=
  let id := commitId now
  if (getKV s.commits id).isSome || (id = "latest" && s.latest.isSome) then
    ⟨s, some .crash, []⟩
  else
    let mr := materializeSnapshot s.disk s.repo.files s.repo.directories
    if mr.2 then
      let meta : CommitMeta :=
        { commit_id := id, timestamp := isoTime now, message := msg,
          author := author }
      let tree := insertKV mr.1 ["metadata.json"] (renderCommitMeta meta)
      ⟨{ s with
          commits := s.commits ++ [(id, tree)],
          history := s.history ++ [meta] }, none, [.commitW id, .journalW]⟩
    else
      ⟨{ s with commits := s.commits ++ [(id, mr.1)] }, some .crash,
        [.commitW id]⟩

/-- Model of `remove_commit(commit_id)` (src/icvcs.py:230-236).  The storage path
is `commits/<id>`, so the reserved identifier `latest` names the Latest
Pointer directory itself and `rmtree`s it. -/
def remove_commit (s : State) (id : String) : OpResult :=
  if id = "latest" then
    if s.latest.isSome then ⟨{ s with latest := none }, none, [.rmLatestW]⟩
    else ⟨s, some .commitNotFound, []⟩
  else if (getKV s.commits id).isSome then
    ⟨{ s with commits := removeKV s.commits id }, none, [.rmCommitW id]⟩
  else ⟨s, some .commitNotFound, []⟩

/-- Model of `clear_commits()` (src/icvcs.py:274-280): deletes every commit
storage except `latest`; journal and Latest Pointer untouched. -/
def clear_commits (s : State) : OpResult :=
  ⟨{ s with commits := [] }, none, s.commits.map fun e => .rmCommitW e.1⟩

/-- The copy phase of `push`: `rmtree(LATEST_DIR)` when present,
`makedirs`, then a recursive copy of every item of the commit storage —
the Latest Pointer becomes exactly the chosen storage tree. -/
def pushCopy (s : State) (t : Tree) : OpResult :=
  ⟨{ s with latest := some t }, none,
    (if s.latest.isSome then [.rmLatestW] else []) ++ [.latestW]⟩

/-- Model of `push(commit_id=None)` (src/icvcs.py:239-271).  The first guard lists
`commits/` (the `latest` directory counts); an explicit identifier must
have storage (`latest` itself may be named, emptying the pointer); with no
identifier the lexicographically greatest non-`latest` listing entry is
pushed. -/
def push (s : State) (cid : Option String) : OpResult :=
  let listing := s.commits.map Prod.fst ++
    (if s.latest.isSome then ["latest"] else [])
  if listing.isEmpty then ⟨s, some .nothingToPush, []⟩
  else
    match cid with
    | some id =>
      if id = "latest" then
        if s.latest.isSome then
          ⟨{ s with latest := some [] }, none, [.rmLatestW, .latestW]⟩
        else ⟨s, some .commitNotFound, []⟩
      else
        match getKV s.commits id with
        | some t => pushCopy s t
        | none => ⟨s, some .commitNotFound, []⟩
    | none =>
      let cs := (sortStr listing).erase ("latest")
      match cs.getLast? with
      | none => ⟨s, some .nothingToPush, []⟩
      | some id =>
        match getKV s.commits id with
        | some t => pushCopy s t
        | none => ⟨s, some .crash, []⟩

/-- One user-level mutating operation (the working-tree writes model the
user editing or deleting source files between commands). -/
inductive Op where
  | add (p : Path) (wf : Bool)
  | remove (p : Path)
  | version_create (name : String) (force : Bool) (now : DTime)
      (author desc : String)
  | version_delete (name : String)
  | commit (now : DTime) (msg author : String)
  | remove_commit (id : String)
  | clear_commits
  | push (cid : Option String)
  | write_disk (p : Path) (c : Content)
  | delete_disk (p : Path)
deriving DecidableEq

/-- Dispatch one operation. -/
def runOp (s : State) : Op → OpResult
  | .add p wf => add s p wf
  | .remove p => remove s p
  | .version_create n f t a d => version_create s n f t a d
  | .version_delete n => version_delete s n
  | .commit t m a => commit s t m a
  | .remove_commit id => remove_commit s id
  | .clear_commits => clear_commits s
  | .push cid => push s cid
  | .write_disk p c => ⟨{ s with disk := insertKV s.disk p c }, none, [.diskW]⟩
  | .delete_disk p => ⟨{ s with disk := removeKV s.disk p }, none, [.diskW]⟩

/-- Run a sequence of operations (each command runs to completion before
the next starts). -/
def runOps (s : State) : List Op → State
  | [] => s
  | op :: ops => runOps (runOp s op).state ops

/-- Does `os.path.exists(os.path.join(latest_commit_path, f))` hold —
i.e. does the Latest Pointer directory (when it exists) contain `f` as a
file or a directory? -/
def latestHas (lt : Option Tree) (f : Path) : Bool :=
  match lt with
  | none => false
  | some t => pexistsIn t f

/-- Byte read of `f` inside the Latest Pointer. -/
def latestRead (lt : Option Tree) (f : Path) : Option Content :=
  match lt with
  | none => none
  | some t => readFile t f

/-- Classification of one tracked file by `status()`
(src/icvcs.py:389-401): missing from the working tree → Deleted; missing
from the latest copy → Modified; otherwise byte comparison (Modified on
difference).  `none` models the uncaught `IsADirectoryError` when either
`open(..., 'rb')` hits a directory. -/
inductive FClass where
  | modC
  | delC
  | okC
deriving DecidableEq

def classify (disk : Tree) (lt : Option Tree) (f : Path) : Option FClass :=
  if pexistsIn disk f = false then some .delC
  else if latestHas lt f = false then some .modC
  else
    match readFile disk f, latestRead lt f with
    | some c1, some c2 => some (if c1 = c2 then .okC else .modC)
    | _, _ => none

/-- The tracked-file loop of `status()`: accumulates the Modified and
Deleted lists, propagating a read crash. -/
def classifyAll (disk : Tree) (lt : Option Tree) :
    List Path → Option (List Path × List Path)
  | [] => some ([], [])
  | f :: fs =>
    match classify disk lt f with
    | none => none
    | some .modC => (classifyAll disk lt fs).map fun md => (f :: md.1, md.2)
    | some .delC => (classifyAll disk lt fs).map fun md => (md.1, f :: md.2)
    | some .okC => classifyAll disk lt fs

/-- The walked set `working_directory_files` (src/icvcs.py:377-381): every working-tree
file whose `os.walk` root does not contain the substring `.icvcs`. -/
def walkFiles (disk : Tree) : List Path :=
  (disk.map Prod.fst).filter fun p => !(containsSub (renderRoot p) ".icvcs")

/-- The four path sets `status()` reports. -/
structure StatusOut where
  untracked : List Path
  modified : List Path
  deleted : List Path
  staged : List Path
deriving DecidableEq

/-- Model of `status()` (src/icvcs.py:370-436), path classification part.
`none` models the run aborting with an uncaught read exception. -/
def status (s : State) : Option StatusOut :=
  let tracked := s.repo.files.dedup
  let working := walkFiles s.disk
  match classifyAll s.disk s.latest tracked with
  | none => none
  | some md =>
    some
      { untracked := working.filter fun p =>
          decide (p ∉ tracked) && !(strStarts (".icvcs") (renderPath p)),
        modified := md.1,
        deleted := md.2,
        staged := tracked.filter fun f =>
          decide (f ∈ working) && decide (f ∉ md.1) && decide (f ∉ md.2) }

/-- Model of `load_version_files(version_id)` (src/icvcs.py:479-494): the `files`
field of the version's metadata document; `none` when the storage or its
`metadata.json` is absent (`FileNotFoundError`, reported as a missing
version). -/
def load_version_files (s : State) (v : String) : Option (List Path) :=
  match getKV s.versionsStore v with
  | none => none
  | some vd =>
    match vd.meta with
    | none => none
    | some m => some m.files

/-- One side of `compare_versions`' per-file read:
`load_file_content(version_id, file) or ""` followed by Python's implicit
text decoding.  Results: `some txt` — the decoded text (missing file or
missing version reads as `""`); `none` — an uncaught exception
(`UnicodeDecodeError` on undecodable bytes, `IsADirectoryError` on a
directory), which aborts the whole comparison. -/
def readSide (s : State) (v : String) (f : Path) : Option String :=
  match getKV s.versionsStore v with
  | none => some ("")
  | some vd =>
    match readFile vd.tree f with
    | some bytes => decodeText bytes
    | none => if isDirIn vd.tree f then none else some ("")

/-- Output of `compare_versions`: the per-file reports actually printed
(path, contents-differ flag) in processing order, and the file at which an
uncaught exception aborted the loop, if any. -/
structure CompareOut where
  reports : List (Path × Bool)
  crashedAt : Option Path
deriving DecidableEq

/-- The per-file loop of `compare_versions` (src/icvcs.py:515-525). -/
def compareLoop (s : State) (v1 v2 : String) : List Path → CompareOut
  | [] => ⟨[], none⟩
  | f :: fs =>
    match readSide s v1 f, readSide s v2 f with
    | some c1, some c2 =>
      let rest := compareLoop s v1 v2 fs
      ⟨(f, decide (c1 ≠ c2)) :: rest.reports, rest.crashedAt⟩
    | _, _ => ⟨[], some f⟩

/-- Insertion into a list sorted by rendered-path string order. -/
def insSortedPath (x : Path) : List Path → List Path
  | [] => [x]
  | y :: t =>
    if strLe (renderPath x) (renderPath y) then x :: y :: t
    else y :: insSortedPath x t

/-- Python `sorted(set(files1).union(files2))`. -/
def sortedUnion (fs1 fs2 : List Path) : List Path :=
  ((fs1 ++ fs2).dedup).foldr insSortedPath []

/-- Model of `compare_versions(version1, version2)` (src/icvcs.py:504-525):
`none` when either version's file list cannot be loaded (early return);
otherwise the loop over the sorted union of the two file lists. -/
def compare_versions (s : State) (v1 v2 : String) : Option CompareOut :=
  match load_version_files s v1, load_version_files s v2 with
  | some fs1, some fs2 => some (compareLoop s v1 v2 (sortedUnion fs1 fs2))
  | _, _ => none

/-! ### Generic association-list lemmas -/

theorem getKV_append_left {α β : Type} [DecidableEq α] {l₁ : List (α × β)}
    (l₂ : List (α × β)) {k : α} {v : β} (h : getKV l₁ k = some v) :
    getKV (l₁ ++ l₂) k = some v := by
  induction l₁ with
  | nil => simp [getKV] at h
  | cons e t ih =>
    simp only [getKV, List.cons_append] at h ⊢
    by_cases he : e.1 = k
    · simpa [he] using h
    · rw [if_neg he] at h ⊢; exact ih h

theorem getKV_removeKV_ne {α β : Type} [DecidableEq α] {l : List (α × β)}
    {k j : α} (hne : k ≠ j) : getKV (removeKV l j) k = getKV l k := by
  induction l with
  | nil => simp [getKV, removeKV]
  | cons e t ih =>
    by_cases he : e.1 = j
    · have h1 : removeKV (e :: t) j = removeKV t j := by
        simp [removeKV, List.filter_cons, he]
      have h2 : getKV (e :: t) k = getKV t k := by
        have : e.1 ≠ k := fun h => hne (he ▸ h ▸ rfl)
        simp [getKV, this]
      rw [h1, h2, ih]
    · have h1 : removeKV (e :: t) j = e :: removeKV t j := by
        simp [removeKV, List.filter_cons, he]
      by_cases hek : e.1 = k
      · rw [h1]; simp [getKV, hek]
      · rw [h1]; simp only [getKV, hek, if_neg hek, ih]

theorem getKV_mem_keys {α β : Type} [DecidableEq α] {l : List (α × β)}
    {k : α} {v : β} (h : getKV l k = some v) : k ∈ l.map Prod.fst := by
  induction l with
  | nil => simp [getKV] at h
  | cons e t ih =>
    simp only [getKV] at h
    by_cases he : e.1 = k
    · simp [he]
    · rw [if_neg he] at h
      simp [ih h]

/-! ### C4 — commit identifier uniqueness (code defect) -/

/-- Trivial initialized repository used for the commit-collision run. -/
def sColl : State :=
  { disk := [],
    repo := { repo_name := "r", files := [], directories := [], versions := [] },
    commits := [], latest := some [], versionsStore := [], history := [] }

/-- First commit instant. -/
def tColl1 : DTime := ⟨2024, 1, 1, 0, 0, 0, 0⟩

/-- Second commit instant: same indivisible second, half a second later. -/
def tColl2 : DTime := ⟨2024, 1, 1, 0, 0, 0, 500000⟩

/-- C4: two `commit()` invocations within the same clock second receive
the *same* identifier (`strftime('%Y%m%d%H%M%S')` has second resolution),
contradicting the claimed distinctness: the second `os.makedirs` raises
`FileExistsError`, so no second commit is created at all.  (It does not
silently overwrite; it aborts with no state change.) -/
theorem commit_id_collision :
    tColl1 ≠ tColl2 ∧ commitId tColl1 = commitId tColl2 ∧
    (runOp sColl (.commit tColl1 ("m") "au")).err = none ∧
    (runOp (runOp sColl (.commit tColl1 ("m") "au")).state
        (.commit tColl2 ("m") "au")).err = some .crash ∧
    (runOp (runOp sColl (.commit tColl1 ("m") "au")).state
        (.commit tColl2 ("m") "au")).state =
      (runOp sColl (.commit tColl1 ("m") "au")).state ∧
    ((runOp sColl (.commit tColl1 ("m") "au")).state.commits.map Prod.fst =
      [commitId tColl1]) := by
  refine ⟨by decide, by decide, by decide, by decide, by decide, by decide⟩

/-! ### C10 — snapshots ignore cached directory capture lists -/

/-- C10: `commit()` and `version create` iterate only the keys of
`tracked_directories` (`for directory, _ in ...items()`), re-walking the
disk with `copytree`; the cached capture-list values never influence the
materialized snapshot. -/
theorem materialize_ignores_capture (disk : Tree) (files : List Path)
    (dirs1 dirs2 : List (Path × List Path))
    (h : dirs1.map Prod.fst = dirs2.map Prod.fst) :
    materializeSnapshot disk files dirs1 = materializeSnapshot disk files dirs2 := by
  have key : ∀ (d1 d2 : List (Path × List Path)) (acc : Tree),
      d1.map Prod.fst = d2.map Prod.fst →
      copyDirsInto disk d1 acc = copyDirsInto disk d2 acc := by
    intro d1
    induction d1 with
    | nil =>
      intro d2 acc h2
      cases d2 with
      | nil => rfl
      | cons e t => simp at h2
    | cons e t ih =>
      intro d2 acc h2
      cases d2 with
      | nil => simp at h2
      | cons e2 t2 =>
        simp only [List.map_cons, List.cons.injEq] at h2
        simp only [copyDirsInto, h2.1]
        by_cases hf : (readFile disk e2.1).isSome
        · simp [hf]
        · simp only [Bool.not_eq_true] at hf
          simp only [hf, Bool.false_eq_true, if_false]
          by_cases hd : isDirIn disk e2.1
          · simp only [hd, if_true]
            by_cases hp : pexistsIn acc [basename e2.1]
            · simp [hp]
            · simp only [Bool.not_eq_true] at hp
              simp only [hp, Bool.false_eq_true, if_false]
              exact ih t2 _ h2.2
          · simp only [Bool.not_eq_true] at hd
            simp only [hd, Bool.false_eq_true, if_false]
            exact ih t2 _ h2.2
  unfold materializeSnapshot
  by_cases hok : (copyFilesInto disk files []).2
  · simp only [hok, if_true]
    exact key dirs1 dirs2 _ h
  · simp only [Bool.not_eq_true] at hok
    simp [hok]

/-- Witness for C10 at concrete inputs: two indexes that differ only in
the cached member list of the tracked directory `sub` yield identical
snapshots. -/
theorem materialize_ignores_capture_witness :
    materializeSnapshot [(["sub", "f"], [104])] [] [(["sub"], [])] =
      materializeSnapshot [(["sub", "f"], [104])] [] [(["sub"], [[ "sub", "f"]])] :=
  materialize_ignores_capture _ _ _ _ (by decide)

/-! ### C3 — push replaces the Latest Pointer wholesale -/

/-- C3: pushing commit `idA` and then commit `idB` leaves the Latest
Pointer holding exactly commit `idB`'s storage tree — the push path
deletes `commits/latest` and recreates it from the chosen commit, so
nothing of `idA` survives. -/
theorem push_replaces_wholesale (s : State) (idA idB : String)
    (tA tB : Tree) (hA : getKV s.commits idA = some tA)
    (hB : getKV s.commits idB = some tB)
    (hlA : idA ≠ "latest") (hlB : idB ≠ "latest") :
    (runOp s (.push (some idA))).state.latest = some tA ∧
    (runOp (runOp s (.push (some idA))).state (.push (some idB))).err = none ∧
    (runOp (runOp s (.push (some idA))).state
        (.push (some idB))).state.latest = some tB := by
  have hlst : ∀ s' : State, getKV s'.commits idA = some tA →
      (s'.commits.map Prod.fst ++
        (if s'.latest.isSome then ["latest"] else [])).isEmpty = false := by
    intro s' h
    cases hc : s'.commits with
    | nil => rw [hc] at h; simp [getKV] at h
    | cons e t => simp [hc]
  have step1 : runOp s (.push (some idA)) = pushCopy s tA := by
    simp only [runOp, push, hlst s hA, Bool.false_eq_true, if_false, hlA,
      if_neg hlA, hA]
  have hs1c : (pushCopy s tA).state.commits = s.commits := rfl
  have hB1 : getKV (pushCopy s tA).state.commits idB = some tB := by
    rw [hs1c]; exact hB
  have step2 : runOp (pushCopy s tA).state (.push (some idB)) =
      pushCopy (pushCopy s tA).state tB := by
    simp only [runOp, push, hlst (pushCopy s tA).state (hs1c ▸ hA),
      Bool.false_eq_true, if_false, if_neg hlB, hB1]
  refine ⟨by rw [step1]; rfl, ?_, ?_⟩
  · rw [step1, step2]; rfl
  · rw [step1, step2]; rfl

/-- Concrete repository with two commits, used to witness C3. -/
def sPush : State :=
  { disk := [],
    repo := { repo_name := "r", files := [], directories := [], versions := [] },
    commits := [("20240101000000", [(["x"], [1])]),
      ("20240102000000", [(["y"], [2])])],
    latest := some [], versionsStore := [], history := [] }

/-- Witness for C3: after pushing the first and then the second commit of
`sPush`, the Latest Pointer is exactly the second commit's tree. -/
theorem push_replaces_wholesale_witness :
    (runOp (runOp sPush (.push (some ("20240101000000")))).state
        (.push (some ("20240102000000")))).state.latest = some [(["y"], [2])] :=
  (push_replaces_wholesale sPush ("20240101000000") "20240102000000"
    [(["x"], [1])] [(["y"], [2])] (by decide) (by decide) (by decide)
    (by decide)).2.2

/-! ### C7 — remove branches on the on-disk type, not on the index -/

/-- Repository where `a` is tracked but has been deleted from disk. -/
def sRemGone : State :=
  { disk := [],
    repo := { repo_name := "r", files := [["a"]], directories := [], versions := [] },
    commits := [], latest := some [], versionsStore := [], history := [] }

/-- Counterexample to C7: `a` is tracked in `tracked_files` but no longer
exists on disk, so `remove` falls into the final `else` ("does not exist
in the repository"), reports a path error rather than succeeding, and
leaves `a` tracked — refuting "whenever path is tracked in either set,
remove succeeds and deletes it, regardless of whether the path still
exists on disk" (and the failure is not `NotTracked` either). -/
theorem remove_tracked_missing_cex :
    (["a"] : Path) ∈ sRemGone.repo.files ∧
    (remove sRemGone ["a"]).err = some .pathNotFound ∧
    (remove sRemGone ["a"]).err ≠ some .notTracked ∧
    (remove sRemGone ["a"]).state = sRemGone := by decide

/-- C7 amended: `remove(path)` branches on the current on-disk type of
`path`.  For an on-disk file it fails `NotTracked` iff `path` is not in
`tracked_files` and otherwise erases it there; for an on-disk directory
likewise against `tracked_directories`; and when `path` no longer exists
on disk it always fails with a path-existence error and removes nothing,
even if tracked. -/
theorem remove_disk_branching (s : State) (p : Path) :
    ((readFile s.disk p).isSome = true →
      (p ∈ s.repo.files →
        remove s p = ⟨{ s with repo := { s.repo with
          files := s.repo.files.erase p } }, none, [.indexW]⟩) ∧
      (p ∉ s.repo.files → remove s p = ⟨s, some .notTracked, [.indexW]⟩)) ∧
    ((readFile s.disk p).isSome = false → isDirIn s.disk p = true →
      ((getKV s.repo.directories p).isSome = true →
        remove s p = ⟨{ s with repo := { s.repo with
          directories := removeKV s.repo.directories p } }, none, [.indexW]⟩) ∧
      ((getKV s.repo.directories p).isSome = false →
        remove s p = ⟨s, some .notTracked, [.indexW]⟩)) ∧
    ((readFile s.disk p).isSome = false → isDirIn s.disk p = false →
      remove s p = ⟨s, some .pathNotFound, [.indexW]⟩) := by
  refine ⟨fun hf => ⟨fun hm => ?_, fun hm => ?_⟩,
    fun hf hd => ⟨fun hg => ?_, fun hg => ?_⟩, fun hf hd => ?_⟩
  all_goals simp_all [remove]

/-- Concrete repository for the C7 witness: `a` on disk and tracked. -/
def sRemOk : State :=
  { disk := [(["a"], [104])],
    repo := { repo_name := "r", files := [["a"]], directories := [], versions := [] },
    commits := [], latest := some [], versionsStore := [], history := [] }

/-- Witness for the amended C7 at a concrete input: removing the tracked,
on-disk file `a` succeeds and erases it from the index. -/
theorem remove_disk_branching_witness :
    remove sRemOk ["a"] = ⟨{ sRemOk with repo := { sRemOk.repo with
      files := sRemOk.repo.files.erase ["a"] } }, none, [.indexW]⟩ :=
  ((remove_disk_branching sRemOk ["a"]).1 (by decide)).1 (by decide)

/-! ### C8 — journal is append-only; `remove_commit latest` caveat -/

/-- Repository whose Latest Pointer holds one file. -/
def sLat : State :=
  { disk := [],
    repo := { repo_name := "r", files := [], directories := [], versions := [] },
    commits := [("20240101000000", [(["x"], [1])])],
    latest := some [(["a"], [1])], versionsStore := [], history := [] }

/-- Counterexample to C8: `remove_commit` invoked with the reserved
identifier `latest` resolves `commits/latest` — the Latest Pointer
directory itself — and `rmtree`s it, so the Latest Pointer is *not* left
intact. -/
theorem remove_commit_latest_cex :
    sLat.latest = some [(["a"], [1])] ∧
    (runOp sLat (.remove_commit ("latest"))).err = none ∧
    (runOp sLat (.remove_commit ("latest"))).state.latest = none := by decide

/-- C8 amended: the journal length never decreases under any operation;
`remove_commit` never touches the journal and leaves the Latest Pointer
intact for every identifier other than the reserved `latest` (whose
storage directory it deletes); `clear_commits` touches neither the
journal nor the Latest Pointer. -/
theorem journal_monotone (s : State) :
    (∀ op, s.history.length ≤ (runOp s op).state.history.length) ∧
    (∀ id, (runOp s (.remove_commit id)).state.history = s.history) ∧
    (∀ id, id ≠ "latest" →
      (runOp s (.remove_commit id)).state.latest = s.latest) ∧
    (runOp s .clear_commits).state.history = s.history ∧
    (runOp s .clear_commits).state.latest = s.latest := by
  refine ⟨fun op => ?_, fun id => ?_, fun id hne => ?_, rfl, rfl⟩
  · cases op <;>
      simp only [runOp, add, remove, version_create, versionCreateBody,
        version_delete, commit, remove_commit, clear_commits, push,
        pushCopy] <;>
      repeat' split
    all_goals simp
  · simp only [runOp, remove_commit]
    repeat' split
    all_goals rfl
  · simp only [runOp, remove_commit, if_neg hne]
    repeat' split
    all_goals rfl

/-- Witness for the amended C8 at concrete inputs: a commit grows the
journal, and removing an ordinary commit leaves the Latest Pointer as it
was. -/
theorem journal_monotone_witness :
    sLat.history.length ≤
      (runOp sLat (.commit ⟨2024, 1, 2, 0, 0, 0, 0⟩ "m" "au")).state.history.length ∧
    (runOp sLat (.remove_commit ("20240101000000"))).state.latest = sLat.latest :=
  ⟨(journal_monotone sLat).1 _,
    (journal_monotone sLat).2.2.1 ("20240101000000") (by decide)⟩

/-! ### C5 — what validation failures leave untouched -/

/-- Counterexample to C5: `add` on a nonexistent path reports the failure
but still falls through to `save_repo_data`, i.e. the index document is
rewritten — the operation does *not* abort before any persistent write
(the rewritten value is unchanged, but a write occurs). -/
theorem validation_write_cex :
    (runOp sColl (.add ["ghost"] false)).err = some .pathNotFound ∧
    (runOp sColl (.add ["ghost"] false)).writes = [.indexW] := by decide

/-- C5 amended: a validation failure leaves every persistent state value
unchanged; `version create` (name collision without `--force`, missing
name) and `push` (nothing to push, unknown commit) abort before any
persistent write, while a failed `add` or `remove` still rewrites the
index document with its unchanged contents. -/
theorem validation_atomicity (s : State) :
    (∀ p wf e, (runOp s (.add p wf)).err = some e →
      (runOp s (.add p wf)).state = s) ∧
    (∀ p e, (runOp s (.remove p)).err = some e →
      (runOp s (.remove p)).state = s) ∧
    (∀ n fo t a d,
      ((runOp s (.version_create n fo t a d)).err = some .alreadyExists ∨
        (runOp s (.version_create n fo t a d)).err = some .nameRequired) →
      (runOp s (.version_create n fo t a d)).state = s ∧
      (runOp s (.version_create n fo t a d)).writes = []) ∧
    (∀ c e, (runOp s (.push c)).err = some e →
      (runOp s (.push c)).state = s ∧ (runOp s (.push c)).writes = []) := by
  refine ⟨fun p wf e => ?_, fun p e => ?_, fun n fo t a d => ?_,
    fun c e => ?_⟩
  · simp only [runOp, add]
    repeat' split
    all_goals (intro h; first | rfl | simp at h)
  · simp only [runOp, remove]
    repeat' split
    all_goals (intro h; first | rfl | simp at h)
  · simp only [runOp, version_create, versionCreateBody]
    repeat' split
    all_goals
      intro h
      first
        | exact ⟨rfl, rfl⟩
        | (rcases h with h | h <;> simp at h)
  · simp only [runOp, push, pushCopy]
    repeat' split
    all_goals (intro h; first | exact ⟨rfl, rfl⟩ | simp at h)

/-- Witness for the amended C5 at concrete inputs: the failed `add` left
the state unchanged, and a push of an unknown commit wrote nothing. -/
theorem validation_atomicity_witness :
    (runOp sColl (.add ["ghost"] false)).state = sColl ∧
    (runOp sColl (.push (some ("nope")))).writes = [] :=
  ⟨(validation_atomicity sColl).1 ["ghost"] false .pathNotFound (by decide),
    ((validation_atomicity sColl).2.2.2 (some ("nope")) .commitNotFound
      (by decide)).2⟩

/-! ### C1 — snapshot isolation -/

/-- Is `op` one of the sanctioned destructions of commit snapshot `id`
(explicit `commit remove` of that identifier, or `commit clear`)? -/
def destroysCommitB (op : Op) (id : String) : Bool :=
  match op with
  | .remove_commit j => decide (j = id)
  | .clear_commits => true
  | _ => false

/-- Is `op` one of the sanctioned destructions of version snapshot `v`
(explicit `version delete`, or `version create --force` on that name)? -/
def destroysVersionB (op : Op) (v : String) : Bool :=
  match op with
  | .version_delete m => decide (m = v)
  | .version_create m force _ _ _ => decide (m = v) && force
  | _ => false

/-- One step preserves every commit storage it is not sanctioned to
destroy, byte for byte. -/
theorem step_preserves_commit (s : State) (op : Op) (id : String) (T : Tree)
    (h : getKV s.commits id = some T) (hd : destroysCommitB op id = false) :
    getKV (runOp s op).state.commits id = some T := by
  cases op with
  | add p wf =>
    simp only [runOp, add]
    repeat' split
    all_goals exact h
  | remove p =>
    simp only [runOp, remove]
    repeat' split
    all_goals exact h
  | version_create n fo t a d =>
    simp only [runOp, version_create, versionCreateBody]
    repeat' split
    all_goals exact h
  | version_delete n =>
    simp only [runOp, version_delete]
    repeat' split
    all_goals exact h
  | commit t m a =>
    simp only [runOp, commit]
    repeat' split
    all_goals first
      | exact h
      | exact getKV_append_left _ h
  | remove_commit j =>
    have hne : id ≠ j := by
      simp only [destroysCommitB, decide_eq_false_iff_not] at hd
      exact fun he => hd he.symm
    simp only [runOp, remove_commit]
    repeat' split
    all_goals first
      | exact h
      | (rw [getKV_removeKV_ne hne]; exact h)
  | clear_commits => simp [destroysCommitB] at hd
  | push cid =>
    simp only [runOp, push, pushCopy]
    repeat' split
    all_goals exact h
  | write_disk p c => exact h
  | delete_disk p => exact h

/-- One step preserves every version storage (tree and metadata) it is
not sanctioned to destroy. -/
theorem step_preserves_version (s : State) (op : Op) (v : String)
    (V : VersionData) (h : getKV s.versionsStore v = some V)
    (hd : destroysVersionB op v = false) :
    getKV (runOp s op).state.versionsStore v = some V := by
  cases op with
  | add p wf =>
    simp only [runOp, add]
    repeat' split
    all_goals exact h
  | remove p =>
    simp only [runOp, remove]
    repeat' split
    all_goals exact h
  | version_create n fo t a d =>
    simp only [runOp, version_create]
    split
    · exact h
    · split
      · split
        · next hfo =>
          have hnv : v ≠ n := by
            simp only [destroysVersionB, hfo, Bool.and_true,
              decide_eq_false_iff_not] at hd
            exact fun he => hd he.symm
          split
          · simp only [versionCreateBody]
            split
            · exact getKV_append_left _
                (by rw [getKV_removeKV_ne hnv]; exact h)
            · exact getKV_append_left _
                (by rw [getKV_removeKV_ne hnv]; exact h)
          · rw [getKV_removeKV_ne hnv]; exact h
        · exact h
      · next hex =>
        have hnv : v = n → False := by
          intro he; subst he; rw [h] at hex; simp at hex
        simp only [versionCreateBody]
        split
        · exact getKV_append_left _ h
        · exact getKV_append_left _ h
  | version_delete n =>
    have hnv : v ≠ n := by
      simp only [destroysVersionB, decide_eq_false_iff_not] at hd
      exact fun he => hd he.symm
    simp only [runOp, version_delete]
    repeat' split
    all_goals first
      | exact h
      | (rw [getKV_removeKV_ne hnv]; exact h)
  | commit t m a =>
    simp only [runOp, commit]
    repeat' split
    all_goals exact h
  | remove_commit j =>
    simp only [runOp, remove_commit]
    repeat' split
    all_goals exact h
  | clear_commits => exact h
  | push cid =>
    simp only [runOp, push, pushCopy]
    repeat' split
    all_goals exact h
  | write_disk p c => exact h
  | delete_disk p => exact h

/-- C1: once a commit or version snapshot exists, any sequence of later
operations — index add/remove, working-tree edits and deletions, further
commits, version creations and pushes — leaves its stored tree (and, for
versions, its metadata) byte-for-byte identical, as long as the sequence
contains none of the sanctioned destructions of that particular snapshot
(`commit remove` of its identifier, `commit clear`, `version delete` of
its name, `version create --force` on its name). -/
theorem snapshot_isolation (s : State) (ops : List Op) :
    (∀ id T, getKV s.commits id = some T →
      (∀ op ∈ ops, destroysCommitB op id = false) →
      getKV (runOps s ops).commits id = some T) ∧
    (∀ v V, getKV s.versionsStore v = some V →
      (∀ op ∈ ops, destroysVersionB op v = false) →
      getKV (runOps s ops).versionsStore v = some V) := by
  induction ops generalizing s with
  | nil => exact ⟨fun id T h _ => h, fun v V h _ => h⟩
  | cons op rest ih =>
    refine ⟨fun id T h hall => ?_, fun v V h hall => ?_⟩
    · have h1 := step_preserves_commit s op id T h (hall op (by simp))
      simp only [runOps]
      exact (ih (runOp s op).state).1 id T h1
        (fun o ho => hall o (by simp [ho]))
    · have h1 := step_preserves_version s op v V h (hall op (by simp))
      simp only [runOps]
      exact (ih (runOp s op).state).2 v V h1
        (fun o ho => hall o (by simp [ho]))

/-- Repository with one commit and one version, used to witness C1. -/
def sIso : State :=
  { disk := [(["b"], [98])],
    repo := { repo_name := "r", files := [["b"]], directories := [], versions := ["v1"] },
    commits := [("20240101000000", [(["a"], [97])])],
    latest := some [],
    versionsStore := [("v1", ⟨[(["a"], [97])],
      some ⟨"v1", "t", "au", "d", [["a"]]⟩⟩)],
    history := [] }

/-- A later workload: edits, index changes, a new commit, a push, a new
version, destruction of the *other* commit and the *other* version. -/
def isoOps : List Op :=
  [ .write_disk ["b"] [99],
    .add ["c"] false,
    .commit ⟨2024, 1, 2, 0, 0, 0, 0⟩ "m" "au",
    .push none,
    .version_create ("v2") false ⟨2024, 1, 2, 0, 0, 1, 0⟩ "au" "d",
    .remove_commit ("20240102000000"),
    .version_delete ("v2"),
    .delete_disk ["b"] ]

/-- Witness for C1: after the whole `isoOps` workload the original commit
storage and the original version storage of `sIso` are unchanged. -/
theorem snapshot_isolation_witness :
    getKV (runOps sIso isoOps).commits ("20240101000000") =
      some [(["a"], [97])] ∧
    getKV (runOps sIso isoOps).versionsStore ("v1") =
      some ⟨[(["a"], [97])], some ⟨"v1", "t", "au", "d", [["a"]]⟩⟩ :=
  ⟨(snapshot_isolation sIso isoOps).1 _ _ (by decide) (by decide),
    (snapshot_isolation sIso isoOps).2 _ _ (by decide) (by decide)⟩

/-! ### Status-engine lemmas -/

/-- Membership in the Modified/Deleted accumulators of the `status()`
loop is exactly membership in the iterated list with the matching
classification. -/
theorem classifyAll_mem (disk : Tree) (lt : Option Tree) (l : List Path)
    (md : List Path × List Path) (h : classifyAll disk lt l = some md)
    (x : Path) :
    (x ∈ md.1 ↔ x ∈ l ∧ classify disk lt x = some .modC) ∧
    (x ∈ md.2 ↔ x ∈ l ∧ classify disk lt x = some .delC) := by
  induction l generalizing md with
  | nil =>
    simp only [classifyAll, Option.some.injEq] at h
    subst h
    simp
  | cons f fs ih =>
    simp only [classifyAll] at h
    cases hc : classify disk lt f with
    | none => rw [hc] at h; simp at h
    | some c =>
      rw [hc] at h
      cases c with
      | modC =>
        cases hrec : classifyAll disk lt fs with
        | none => rw [hrec] at h; simp at h
        | some md' =>
          rw [hrec] at h
          simp only [Option.map_some', Option.some.injEq] at h
          subst h
          have hih := ih md' hrec
          constructor
          · constructor
            · intro hx
              rcases List.mem_cons.mp hx with hx | hx
              · exact ⟨by simp [hx], hx ▸ hc⟩
              · obtain ⟨h1, h2⟩ := (hih.1).mp hx
                exact ⟨by simp [h1], h2⟩
            · rintro ⟨hx, hcl⟩
              rcases List.mem_cons.mp hx with hx | hx
              · simp [hx]
              · exact List.mem_cons_of_mem _ ((hih.1).mpr ⟨hx, hcl⟩)
          · constructor
            · intro hx
              obtain ⟨h1, h2⟩ := (hih.2).mp hx
              exact ⟨by simp [h1], h2⟩
            · rintro ⟨hx, hcl⟩
              rcases List.mem_cons.mp hx with hx | hx
              · rw [hx, hc] at hcl; simp at hcl
              · exact (hih.2).mpr ⟨hx, hcl⟩
      | delC =>
        cases hrec : classifyAll disk lt fs with
        | none => rw [hrec] at h; simp at h
        | some md' =>
          rw [hrec] at h
          simp only [Option.map_some', Option.some.injEq] at h
          subst h
          have hih := ih md' hrec
          constructor
          · constructor
            · intro hx
              obtain ⟨h1, h2⟩ := (hih.1).mp hx
              exact ⟨by simp [h1], h2⟩
            · rintro ⟨hx, hcl⟩
              rcases List.mem_cons.mp hx with hx | hx
              · rw [hx, hc] at hcl; simp at hcl
              · exact (hih.1).mpr ⟨hx, hcl⟩
          · constructor
            · intro hx
              rcases List.mem_cons.mp hx with hx | hx
              · exact ⟨by simp [hx], hx ▸ hc⟩
              · obtain ⟨h1, h2⟩ := (hih.2).mp hx
                exact ⟨by simp [h1], h2⟩
            · rintro ⟨hx, hcl⟩
              rcases List.mem_cons.mp hx with hx | hx
              · simp [hx]
              · exact List.mem_cons_of_mem _ ((hih.2).mpr ⟨hx, hcl⟩)
      | okC =>
        have hih := ih md h
        constructor
        · constructor
          · intro hx
            obtain ⟨h1, h2⟩ := (hih.1).mp hx
            exact ⟨by simp [h1], h2⟩
          · rintro ⟨hx, hcl⟩
            rcases List.mem_cons.mp hx with hx | hx
            · rw [hx, hc] at hcl; simp at hcl
            · exact (hih.1).mpr ⟨hx, hcl⟩
        · constructor
          · intro hx
            obtain ⟨h1, h2⟩ := (hih.2).mp hx
            exact ⟨by simp [h1], h2⟩
          · rintro ⟨hx, hcl⟩
            rcases List.mem_cons.mp hx with hx | hx
            · rw [hx, hc] at hcl; simp at hcl
            · exact (hih.2).mpr ⟨hx, hcl⟩

/-- When the `status()` loop completed without crashing, every iterated
file received some classification. -/
theorem classifyAll_isSome (disk : Tree) (lt : Option Tree) (l : List Path)
    (md : List Path × List Path) (h : classifyAll disk lt l = some md)
    (x : Path) (hx : x ∈ l) : (classify disk lt x).isSome := by
  induction l generalizing md with
  | nil => simp at hx
  | cons f fs ih =>
    simp only [classifyAll] at h
    cases hc : classify disk lt f with
    | none => rw [hc] at h; simp at h
    | some c =>
      rw [hc] at h
      rcases List.mem_cons.mp hx with hx | hx
      · rw [hx, hc]; rfl
      · cases c with
        | modC =>
          cases hrec : classifyAll disk lt fs with
          | none => rw [hrec] at h; simp at h
          | some md' => exact ih md' hrec hx
        | delC =>
          cases hrec : classifyAll disk lt fs with
          | none => rw [hrec] at h; simp at h
          | some md' => exact ih md' hrec hx
        | okC => exact ih md h hx

/-- A file classified "unchanged" was read from the working tree, hence
is one of the walked disk files. -/
theorem classify_ok_read (disk : Tree) (lt : Option Tree) (f : Path)
    (h : classify disk lt f = some .okC) : (readFile disk f).isSome := by
  unfold classify at h
  split at h
  · simp at h
  · split at h
    · simp at h
    · cases hr : readFile disk f with
      | none => rw [hr] at h; cases hl : latestRead lt f <;> rw [hl] at h <;> simp at h
      | some c => rfl

/-! ### C2 — status partition -/

/-- Working tree whose only file sits under a directory whose name
contains `.icvcs`, which is also tracked (the kind of state `add` plus a
user mkdir can produce). -/
def sC2 : State :=
  { disk := [(["a.icvcs", "f"], [104])],
    repo := {
      repo_name := "r",
      files := [["a.icvcs", "f"]],
      directories := [(["a.icvcs"], [])],
      versions := [] },
    commits := [],
    latest := some [(["a.icvcs", "f"], [104])],
    versionsStore := [], history := [] }

/-- Counterexample to C2: `status` succeeds on `sC2`, yet the tracked
file `a.icvcs/f` — present, and byte-identical to the Latest Pointer's
copy — lands in *none* of Modified/Deleted/Staged: `os.walk`'s
`if ICVCS_DIR in root: continue` filter drops its directory from the
walked set (substring match on `.icvcs`), so the staged intersection
misses it.  The three sets do not cover `tracked_files`. -/
theorem status_partition_cex :
    status sC2 = some ⟨[], [], [], []⟩ ∧
    (["a.icvcs", "f"] : Path) ∈ sC2.repo.files := by decide

/-- C2 amended: for every repository state on which `status()` completes
and whose tracked files all live outside walk-skipped directories (no
`os.walk` root containing the substring `.icvcs`), the three sets
Modified / Deleted / Staged partition `tracked_files`: their union is
exactly the tracked files and they are pairwise disjoint. -/
theorem status_partition (s : State) (out : StatusOut)
    (h : status s = some out)
    (hvis : ∀ f ∈ s.repo.files, containsSub (renderRoot f) ".icvcs" = false) :
    (∀ f, f ∈ s.repo.files ↔
      (f ∈ out.modified ∨ f ∈ out.deleted ∨ f ∈ out.staged)) ∧
    (∀ f, ¬(f ∈ out.modified ∧ f ∈ out.deleted)) ∧
    (∀ f, ¬(f ∈ out.modified ∧ f ∈ out.staged)) ∧
    (∀ f, ¬(f ∈ out.deleted ∧ f ∈ out.staged)) := by
  simp only [status] at h
  cases hcl : classifyAll s.disk s.latest s.repo.files.dedup with
  | none => rw [hcl] at h; simp at h
  | some md =>
    rw [hcl] at h
    simp only [Option.some.injEq] at h
    subst h
    have hmem := fun x => classifyAll_mem s.disk s.latest _ md hcl x
    refine ⟨fun f => ?_, fun f ⟨h1, h2⟩ => ?_, fun f ⟨h1, h2⟩ => ?_,
      fun f ⟨h1, h2⟩ => ?_⟩
    · constructor
      · intro hf
        have hfd : f ∈ s.repo.files.dedup := List.mem_dedup.mpr hf
        have hs := classifyAll_isSome s.disk s.latest _ md hcl f hfd
        cases hc : classify s.disk s.latest f with
        | none => rw [hc] at hs; simp at hs
        | some c =>
          cases c with
          | modC => exact Or.inl ((hmem f).1.mpr ⟨hfd, hc⟩)
          | delC => exact Or.inr (Or.inl ((hmem f).2.mpr ⟨hfd, hc⟩))
          | okC =>
            refine Or.inr (Or.inr ?_)
            refine List.mem_filter.mpr ⟨hfd, ?_⟩
            have hrd := classify_ok_read s.disk s.latest f hc
            have hwk : f ∈ walkFiles s.disk := by
              refine List.mem_filter.mpr ⟨?_, ?_⟩
              · cases hr : readFile s.disk f with
                | none => rw [hr] at hrd; simp at hrd
                | some c0 => exact getKV_mem_keys hr
              · rw [hvis f hf]; rfl
            have hnm : f ∉ md.1 := fun hx =>
              absurd (((hmem f).1.mp hx).2) (by simp [hc])
            have hnd : f ∉ md.2 := fun hx =>
              absurd (((hmem f).2.mp hx).2) (by simp [hc])
            simp [hwk, hnm, hnd]
      · intro hf
        rcases hf with hf | hf | hf
        · exact List.mem_dedup.mp ((hmem f).1.mp hf).1
        · exact List.mem_dedup.mp ((hmem f).2.mp hf).1
        · exact List.mem_dedup.mp (List.mem_filter.mp hf).1
    · have e1 := ((hmem f).1.mp h1).2
      have e2 := ((hmem f).2.mp h2).2
      rw [e1] at e2; simp at e2
    · have hcond := (List.mem_filter.mp h2).2
      simp only [Bool.and_eq_true, decide_eq_true_eq] at hcond
      exact hcond.1.2 h1
    · have hcond := (List.mem_filter.mp h2).2
      simp only [Bool.and_eq_true, decide_eq_true_eq] at hcond
      exact hcond.2 h1

/-- Repository used to witness the amended C2: one staged file, one
modified (absent from latest), one deleted. -/
def sC2w : State :=
  { disk := [(["a"], [104]), (["b"], [98])],
    repo := {
      repo_name := "r",
      files := [["a"], ["b"], ["c"]],
      directories := [],
      versions := [] },
    commits := [],
    latest := some [(["a"], [104])],
    versionsStore := [], history := [] }

/-- Witness for the amended C2 at a concrete input, instantiated at the
tracked file `b` (which is Modified there). -/
theorem status_partition_witness :
    (["b"] : Path) ∈ sC2w.repo.files ↔
      ((["b"] : Path) ∈ (StatusOut.mk [] [["b"]] [["c"]] [["a"]]).modified ∨
       (["b"] : Path) ∈ (StatusOut.mk [] [["b"]] [["c"]] [["a"]]).deleted ∨
       (["b"] : Path) ∈ (StatusOut.mk [] [["b"]] [["c"]] [["a"]]).staged) :=
  (status_partition sC2w ⟨[], [["b"]], [["c"]], [["a"]]⟩ (by decide)
    (by decide)).1 ["b"]

/-! ### C9 — materialization flattens file paths -/

theorem getKV_append_right_of_none {α β : Type} [DecidableEq α]
    {l : List (α × β)} {k : α} {v : β} (h : getKV l k = none) :
    getKV (l ++ [(k, v)]) k = some v := by
  induction l with
  | nil => simp [getKV]
  | cons e t ih =>
    simp only [getKV] at h ⊢
    by_cases he : e.1 = k
    · rw [if_pos he] at h; exact absurd h (by simp)
    · rw [if_neg he] at h ⊢
      exact ih h

/-- The map `insertKV` introduces no key other than the inserted one. -/
theorem insertKV_keys {α β : Type} [DecidableEq α] (l : List (α × β))
    (k0 : α) (v : β) :
    ∀ k ∈ (insertKV l k0 v).map Prod.fst, k ∈ l.map Prod.fst ∨ k = k0 := by
  intro k hk
  unfold insertKV at hk
  split at hk
  · obtain ⟨e, he, hke⟩ := List.mem_map.mp hk
    obtain ⟨e0, he0, hge⟩ := List.mem_map.mp he
    by_cases h0 : e0.1 = k0
    · rw [if_pos h0] at hge
      right; rw [← hke, ← hge]
    · rw [if_neg h0] at hge
      left; exact List.mem_map.mpr ⟨e0, he0, by rw [← hke, ← hge]⟩
  · rw [List.map_append] at hk
    rcases List.mem_append.mp hk with hk | hk
    · exact Or.inl hk
    · right; simpa using hk
  
/-- The tracked-file copy loop stores only under single-component
basenames (plus whatever was already in the accumulator). -/
theorem copyFilesInto_keys (disk : Tree) (fs : List Path) (acc : Tree) :
    ∀ k ∈ (copyFilesInto disk fs acc).1.map Prod.fst,
      k ∈ acc.map Prod.fst ∨ k.length = 1 := by
  induction fs generalizing acc with
  | nil => intro k hk; exact Or.inl hk
  | cons f ft ih =>
    intro k hk
    cases hr : readFile disk f with
    | some c =>
      simp only [copyFilesInto, hr] at hk
      rcases ih (insertKV acc [basename f] c) k hk with hin | hlen
      · rcases insertKV_keys acc [basename f] c k hin with hin | hone
        · exact Or.inl hin
        · right; rw [hone]; rfl
      · exact Or.inr hlen
    | none =>
      by_cases hd : isDirIn disk f = true
      · simp only [copyFilesInto, hr, hd, if_true] at hk
        exact Or.inl hk
      · simp only [Bool.not_eq_true] at hd
        simp only [copyFilesInto, hr, hd, Bool.false_eq_true, if_false] at hk
        exact ih acc k hk

/-- Every entry `copytree` contributes starts with the directory's
basename. -/
theorem copytreeEntries_head (disk : Tree) (d : Path) :
    ∀ k ∈ (copytreeEntries disk d).map Prod.fst, k.headD ("") = basename d := by
  intro k hk
  obtain ⟨e, he, hke⟩ := List.mem_map.mp hk
  unfold copytreeEntries at he
  obtain ⟨e0, he0, hge⟩ := List.mem_filterMap.mp he
  split at hge
  · cases hge with
    | refl => rw [← hke]; rfl
  · cases hge

/-- The tracked-directory copy loop stores only under keys whose first
component is the basename of one of the iterated directories. -/
theorem copyDirsInto_keys (disk : Tree) (ds : List (Path × List Path))
    (acc : Tree) :
    ∀ k ∈ (copyDirsInto disk ds acc).1.map Prod.fst,
      k ∈ acc.map Prod.fst ∨ ∃ dp ∈ ds, k.headD ("") = basename dp.1 := by
  induction ds generalizing acc with
  | nil => intro k hk; exact Or.inl hk
  | cons d dt ih =>
    intro k hk
    simp only [copyDirsInto] at hk
    split at hk
    · exact Or.inl hk
    · split at hk
      · split at hk
        · exact Or.inl hk
        · rcases ih (acc ++ copytreeEntries disk d.1) k hk with hin | hex
          · rw [List.map_append] at hin
            rcases List.mem_append.mp hin with hin | hin
            · exact Or.inl hin
            · exact Or.inr ⟨d, by simp, copytreeEntries_head disk d.1 k hin⟩
          · obtain ⟨dp, hdp, hh⟩ := hex
            exact Or.inr ⟨dp, List.mem_cons_of_mem _ hdp, hh⟩
      · rcases ih acc k hk with hin | hex
        · exact Or.inl hin
        · obtain ⟨dp, hdp, hh⟩ := hex
          exact Or.inr ⟨dp, List.mem_cons_of_mem _ hdp, hh⟩

/-- Key shape of a whole materialized snapshot: single-component
basenames from the file loop, or first component the basename of a
tracked directory. -/
theorem materialize_keys (disk : Tree) (fs : List Path)
    (ds : List (Path × List Path)) :
    ∀ k ∈ (materializeSnapshot disk fs ds).1.map Prod.fst,
      k.length = 1 ∨ ∃ dp ∈ ds, k.headD ("") = basename dp.1 := by
  intro k hk
  by_cases hok : (copyFilesInto disk fs []).2 = true
  · simp only [materializeSnapshot, hok, if_true] at hk
    rcases copyDirsInto_keys disk ds _ k hk with hin | hex
    · rcases copyFilesInto_keys disk fs [] k hin with hin | hone
      · simp at hin
      · exact Or.inl hone
    · exact Or.inr hex
  · simp only [Bool.not_eq_true] at hok
    simp only [materializeSnapshot, hok, Bool.false_eq_true, if_false] at hk
    rcases copyFilesInto_keys disk fs [] k hk with hin | hone
    · simp at hin
    · exact Or.inl hone

theorem startsWithPath_le {p q : Path} (h : startsWithPath p q = true) :
    p.length ≤ q.length := by
  induction p generalizing q with
  | nil => simp
  | cons a as ih =>
    cases q with
    | nil => simp [startsWithPath] at h
    | cons b bs =>
      simp only [startsWithPath] at h
      split at h
      · simpa using ih h
      · cases h

theorem startsWithPath_refl (p : Path) : startsWithPath p p = true := by
  induction p with
  | nil => rfl
  | cons a as ih => simp [startsWithPath, ih]

theorem startsWithPath_head {a : String} {as q : Path}
    (h : startsWithPath (a :: as) q = true) : ∃ qs, q = a :: qs := by
  cases q with
  | nil => simp [startsWithPath] at h
  | cons b bs =>
    simp only [startsWithPath] at h
    split at h
    · next he => exact ⟨bs, by rw [he]⟩
    · cases h

/-- Repository with a tracked directory `sub` that also contains the
tracked file `sub/f` — the directory copy re-creates the nested path
inside the snapshot. -/
def sC9 : State :=
  { disk := [(["sub", "f"], [104])],
    repo := {
      repo_name := "r",
      files := [["sub", "f"]],
      directories := [(["sub"], [])],
      versions := [] },
    commits := [], latest := some [], versionsStore := [], history := [] }

/-- The state after `commit` then `push` on `sC9`. -/
def sC9b : State :=
  runOps sC9 [.commit ⟨2024, 1, 1, 0, 0, 0, 0⟩ "m" "au", .push none]

/-- Counterexample to C9: the tracked file `sub/f` has a directory
component, yet after commit+push `status` *does* find it under its full
relative path inside the Latest Pointer (the tracked directory `sub` was
`copytree`d there) and classifies it Staged, not Modified — refuting
"never finds it, and classifies it Modified regardless of its
content". -/
theorem flatten_modified_cex :
    (["sub", "f"] : Path) ∈ sC9.repo.files ∧
    2 ≤ (["sub", "f"] : Path).length ∧
    latestHas sC9b.latest ["sub", "f"] = true ∧
    status sC9b = some ⟨[], [], [], [["sub", "f"]]⟩ := by decide

/-- C9 amended: `commit`/`version create` copy each tracked file into the
snapshot root under its basename (every key the file loop produces has a
single component), and consequently a tracked file with a directory
component whose first component matches no tracked directory's basename
is absent from the pushed Latest Pointer under its full relative path and
is classified Modified by `status` regardless of its content. -/
theorem flatten_modified (s : State) (f : Path) (now : DTime)
    (msg au : String) (out : StatusOut)
    (hf : f ∈ s.repo.files)
    (hdisk : (readFile s.disk f).isSome = true)
    (hlen : 2 ≤ f.length)
    (hdirs : ∀ dp ∈ s.repo.directories, basename dp.1 ≠ f.headD (""))
    (hfresh : getKV s.commits (commitId now) = none)
    (hlat : commitId now ≠ "latest")
    (hmat : (materializeSnapshot s.disk s.repo.files s.repo.directories).2 = true)
    (hst : status (runOps s
      [.commit now msg au, .push (some (commitId now))]) = some out) :
    (∀ k ∈ ((copyFilesInto s.disk s.repo.files []).1.map Prod.fst),
      k.length = 1) ∧
    f ∈ out.modified ∧ f ∉ out.deleted ∧ f ∉ out.staged := by
  have hbase : ∀ k ∈ ((copyFilesInto s.disk s.repo.files []).1.map Prod.fst),
      k.length = 1 := by
    intro k hk
    rcases copyFilesInto_keys s.disk s.repo.files [] k hk with hin | hone
    · simp at hin
    · exact hone
  -- the materialized commit tree
  set mtree := (materializeSnapshot s.disk s.repo.files s.repo.directories).1
    with hmtree
  set cmeta : CommitMeta :=
    { commit_id := commitId now, timestamp := isoTime now, message := msg,
      author := au } with hcmeta
  set ctree := insertKV mtree ["metadata.json"] (renderCommitMeta cmeta)
    with hctree
  -- step 1: the commit succeeds and appends (id, ctree)
  have hguard : ((getKV s.commits (commitId now)).isSome ||
      (commitId now = "latest" && s.latest.isSome)) = false := by
    rw [hfresh]
    simp [hlat]
  have hs1 : (commit s now msg au).state = { s with
      commits := s.commits ++ [(commitId now, ctree)],
      history := s.history ++ [cmeta] } := by
    simp only [commit, hguard, Bool.false_eq_true, if_false, hmat,
      if_true, ← hmtree, ← hcmeta, ← hctree]
  -- step 2: push of that identifier sets the Latest Pointer to ctree
  have hid1 : getKV (commit s now msg au).state.commits
      (commitId now) = some ctree := by
    rw [hs1]
    exact getKV_append_right_of_none hfresh
  have hlist : ((commit s now msg au).state.commits.map Prod.fst ++
      (if (commit s now msg au).state.latest.isSome then ["latest"]
        else [])).isEmpty = false := by
    cases hc : (commit s now msg au).state.commits with
    | nil => rw [hc] at hid1; simp [getKV] at hid1
    | cons e t => simp
  have hs2 : (push (commit s now msg au).state
      (some (commitId now))).state =
      { (commit s now msg au).state with latest := some ctree } := by
    simp only [push, pushCopy, hlist, Bool.false_eq_true, if_false,
      if_neg hlat, hid1]
  -- the status state has the original disk/index and latest = ctree
  simp only [runOps, runOp] at hst
  rw [hs2, hs1] at hst
  -- no path with ≥ 2 components and a non-matching head exists in ctree
  have hkeys : ∀ k ∈ ctree.map Prod.fst,
      k.length = 1 ∨ ∃ dp ∈ s.repo.directories, k.headD ("") = basename dp.1 := by
    intro k hk
    rcases insertKV_keys mtree ["metadata.json"] (renderCommitMeta cmeta) k
        hk with hin | hone
    · exact materialize_keys s.disk s.repo.files s.repo.directories k hin
    · left; rw [hone]; rfl
  have hnayk : ∀ k ∈ ctree.map Prod.fst, ¬ (startsWithPath f k = true) := by
    intro k hk hsw
    rcases hkeys k hk with hone | ⟨dp, hdp, hh⟩
    · have := startsWithPath_le hsw
      omega
    · cases f with
      | nil => simp at hlen
      | cons a as =>
        obtain ⟨qs, hq⟩ := startsWithPath_head hsw
        apply hdirs dp hdp
        rw [hq] at hh
        simpa using hh.symm
  have hnof : pexistsIn ctree f = false := by
    unfold pexistsIn
    have h1 : (readFile ctree f).isSome = false := by
      cases hr : readFile ctree f with
      | none => rfl
      | some c =>
        exact absurd (startsWithPath_refl f) (hnayk f (getKV_mem_keys hr))
    have h2 : isDirIn ctree f = false := by
      cases hd : isDirIn ctree f with
      | false => rfl
      | true =>
        exfalso
        unfold isDirIn at hd
        obtain ⟨e, he, hcond⟩ := List.any_eq_true.mp hd
        have := (Bool.and_eq_true _ _).mp hcond
        exact hnayk e.1 (List.mem_map.mpr ⟨e, he, rfl⟩) this.1
    rw [h1, h2]
    rfl
  -- classification of f is Modified
  have hcls : classify s.disk (some ctree) f = some .modC := by
    unfold classify
    have hex : pexistsIn s.disk f = true := by
      unfold pexistsIn
      rw [hdisk]
      rfl
    rw [hex]
    simp only [Bool.true_eq_false, if_false]
    have : latestHas (some ctree) f = false := hnof
    rw [this]
    simp
  -- read out the status result
  simp only [status] at hst
  cases hmd : classifyAll s.disk (some ctree) s.repo.files.dedup with
  | none =>
    rw [hmd] at hst
    simp at hst
  | some md =>
    rw [hmd] at hst
    simp only [Option.some.injEq] at hst
    subst hst
    have hfd : f ∈ s.repo.files.dedup := List.mem_dedup.mpr hf
    have hmm := classifyAll_mem s.disk (some ctree) _ md hmd f
    have hfm : f ∈ md.1 := (hmm.1).mpr ⟨hfd, hcls⟩
    refine ⟨hbase, hfm, ?_, ?_⟩
    · intro hx
      have := ((hmm.2).mp hx).2
      rw [hcls] at this
      simp at this
    · intro hx
      have hcond := (List.mem_filter.mp hx).2
      simp only [Bool.and_eq_true, decide_eq_true_eq] at hcond
      exact hcond.1.2 hfm

/-- Repository with a nested tracked file and no tracked directories,
used to witness the amended C9. -/
def sC9w : State :=
  { disk := [(["sub", "f"], [104])],
    repo := {
      repo_name := "r",
      files := [["sub", "f"]],
      directories := [],
      versions := [] },
    commits := [], latest := some [], versionsStore := [], history := [] }

/-- Commit instant used in the C9 witness. -/
def tC9 : DTime := ⟨2024, 1, 1, 0, 0, 0, 0⟩

/-- Witness for the amended C9: after commit+push of `sC9w`, the tracked
file `sub/f` — byte-identical on disk and in the snapshot (stored as
`f`) — is reported Modified and in no other set. -/
theorem flatten_modified_witness :
    status (runOps sC9w [.commit tC9 ("m") "au",
        .push (some (commitId tC9))]) =
      some ⟨[], [["sub", "f"]], [], []⟩ ∧
    (["sub", "f"] : Path) ∈ (StatusOut.mk [] [["sub", "f"]] [] []).modified ∧
    (["sub", "f"] : Path) ∉ (StatusOut.mk [] [["sub", "f"]] [] []).deleted ∧
    (["sub", "f"] : Path) ∉ (StatusOut.mk [] [["sub", "f"]] [] []).staged :=
  ⟨by decide,
    (flatten_modified sC9w ["sub", "f"] tC9 ("m") "au"
      ⟨[], [["sub", "f"]], [], []⟩ (by decide) (by decide) (by decide)
      (by decide) (by decide) (by decide) (by decide) (by decide)).2⟩

/-! ### C6 — a failed text decode aborts the whole comparison -/

/-- Two versions whose file `a` is undecodable on one side and whose
file `b` genuinely differs. -/
def sC6 : State :=
  { disk := [],
    repo := {
      repo_name := "r",
      files := [],
      directories := [],
      versions := ["v1", "v2"] },
    commits := [], latest := some [],
    versionsStore :=
      [("v1", ⟨[(["a"], [255]), (["b"], [98]),
          (["metadata.json"], strBytes ("m"))],
        some ⟨"v1", "t", "au", "d", [["a"], ["b"]]⟩⟩),
       ("v2", ⟨[(["a"], [97]), (["b"], [99]),
          (["metadata.json"], strBytes ("m"))],
        some ⟨"v2", "t", "au", "d", [["a"], ["b"]]⟩⟩)],
    history := [] }

/-- Counterexample to C6: file `a` of `v1` holds the byte `0xFF`, which
text decoding rejects — `load_file_content`'s `open(..., "r").read()`
raises an uncaught `UnicodeDecodeError` and the whole
`compare_versions` run aborts at `a`: file `b`, whose contents differ
between the versions, is never compared, refuting "still completes the
comparison of every other file". -/
theorem compare_abort_cex :
    compare_versions sC6 ("v1") "v2" = some ⟨[], some ["a"]⟩ ∧
    readSide sC6 ("v1") ["b"] ≠ readSide sC6 ("v2") ["b"] ∧
    (["b"] : Path) ∈ sortedUnion [["a"], ["b"]] [["a"], ["b"]] := by decide

/-- The loop of `compare_versions` reports every file of the iterated
list when nothing raised. -/
theorem compareLoop_complete (s : State) (v1 v2 : String) (l : List Path)
    (h : (compareLoop s v1 v2 l).crashedAt = none) :
    (compareLoop s v1 v2 l).reports.map Prod.fst = l := by
  induction l with
  | nil => rfl
  | cons g gs ih =>
    cases h1 : readSide s v1 g with
    | none => simp only [compareLoop, h1] at h ⊢; simp at h
    | some c1 =>
      cases h2 : readSide s v2 g with
      | none => simp only [compareLoop, h1, h2] at h ⊢; simp at h
      | some c2 =>
        simp only [compareLoop, h1, h2] at h ⊢
        simp only [List.map_cons, List.cons.injEq]
        exact ⟨trivial, ih h⟩

/-- When the loop aborts at `f`, exactly the files strictly before the
first occurrence of `f` were reported, and one of `f`'s two reads
raised. -/
theorem compareLoop_crash (s : State) (v1 v2 : String) (l : List Path)
    (f : Path) (h : (compareLoop s v1 v2 l).crashedAt = some f) :
    (compareLoop s v1 v2 l).reports.map Prod.fst =
      l.takeWhile (fun g => decide (g ≠ f)) ∧
    (readSide s v1 f = none ∨ readSide s v2 f = none) := by
  induction l with
  | nil => simp [compareLoop] at h
  | cons g gs ih =>
    cases h1 : readSide s v1 g with
    | none =>
      simp only [compareLoop, h1] at h ⊢
      simp only [Option.some.injEq] at h
      subst h
      refine ⟨?_, Or.inl h1⟩
      simp [List.takeWhile_cons]
    | some c1 =>
      cases h2 : readSide s v2 g with
      | none =>
        simp only [compareLoop, h1, h2] at h ⊢
        simp only [Option.some.injEq] at h
        subst h
        refine ⟨?_, Or.inr h2⟩
        simp [List.takeWhile_cons]
      | some c2 =>
        simp only [compareLoop, h1, h2] at h ⊢
        obtain ⟨heq, hfail⟩ := ih h
        have hgf : g ≠ f := by
          intro he
          subst he
          rcases hfail with hx | hx
          · rw [h1] at hx; cases hx
          · rw [h2] at hx; cases hx
        refine ⟨?_, hfail⟩
        simp [List.takeWhile_cons, hgf, heq]

/-- C6 amended: if a file's content fails to decode as text, the
comparison does *not* isolate the failure — it aborts at that file:
exactly the files strictly earlier in the sorted union are reported, the
failing file and every later file are not.  When no decode fails, every
file of the union is reported. -/
theorem compare_abort_isolation (s : State) (v1 v2 : String)
    (fs1 fs2 : List Path) (out : CompareOut)
    (h1 : load_version_files s v1 = some fs1)
    (h2 : load_version_files s v2 = some fs2)
    (h : compare_versions s v1 v2 = some out) :
    (out.crashedAt = none →
      out.reports.map Prod.fst = sortedUnion fs1 fs2) ∧
    (∀ f, out.crashedAt = some f →
      out.reports.map Prod.fst =
        (sortedUnion fs1 fs2).takeWhile (fun g => decide (g ≠ f)) ∧
      (∀ e ∈ out.reports, e.1 ≠ f) ∧
      (readSide s v1 f = none ∨ readSide s v2 f = none)) := by
  simp only [compare_versions, h1, h2, Option.some.injEq] at h
  subst h
  constructor
  · intro hc
    exact compareLoop_complete s v1 v2 _ hc
  · intro f hc
    obtain ⟨heq, hfail⟩ := compareLoop_crash s v1 v2 _ f hc
    refine ⟨heq, ?_, hfail⟩
    intro e he
    have hm : e.1 ∈ (compareLoop s v1 v2 (sortedUnion fs1 fs2)).reports.map
        Prod.fst := List.mem_map.mpr ⟨e, he, rfl⟩
    rw [heq] at hm
    have := List.mem_takeWhile_imp hm
    simpa using this

/-- Versions where the sorted-first file `a` compares fine (and differs)
while file `b` is undecodable on one side. -/
def sC6w : State :=
  { disk := [],
    repo := {
      repo_name := "r",
      files := [],
      directories := [],
      versions := ["v1", "v2"] },
    commits := [], latest := some [],
    versionsStore :=
      [("v1", ⟨[(["a"], [97]), (["b"], [255]),
          (["metadata.json"], strBytes ("m"))],
        some ⟨"v1", "t", "au", "d", [["a"], ["b"]]⟩⟩),
       ("v2", ⟨[(["a"], [98]), (["b"], [98]),
          (["metadata.json"], strBytes ("m"))],
        some ⟨"v2", "t", "au", "d", [["a"], ["b"]]⟩⟩)],
    history := [] }

/-- Witness for the amended C6 at a concrete input: the run on `sC6w`
reports `a` (difference found), then aborts at the undecodable `b`; the
reported files are exactly those before `b` in the sorted union. -/
theorem compare_abort_witness :
    compare_versions sC6w ("v1") "v2" = some ⟨[(["a"], true)], some ["b"]⟩ ∧
    ([(["a"], true)] : List (Path × Bool)).map Prod.fst =
      (sortedUnion [["a"], ["b"]] [["a"], ["b"]]).takeWhile
        (fun g => decide (g ≠ ["b"])) :=
  ⟨by decide,
    (((compare_abort_isolation sC6w ("v1") "v2" [["a"], ["b"]] [["a"], ["b"]]
      ⟨[(["a"], true)], some ["b"]⟩ (by decide) (by decide) (by decide)).2
      ["b"] (by decide)).1)⟩

end Icvcs
